import Mathlib

/-!
Verification of the DCS (Discord Commit Summarizer) script `src/dcs/main.py`.

Strings are modelled as `List Char`.  Python's whitespace-sensitive string
primitives (`str.strip`, `str.lstrip`, `str.splitlines`, `str.rfind`) are
embedded as executable Lean functions below, and the message segmenter
`split_message`, the webhook publisher loop of `send_to_discord`, the
commit reader `get_commits_since`, the two summary formatters and
`get_start_date` are translated from the source.
-/

namespace DCS

/-- The set of characters Python's `str.isspace` / argument-less `str.strip`
treats as whitespace. -/
def isPySpace (c : Char) : Bool :=
  c == ' ' || c == '\t' || c == '\n' || c == '\x0b' || c == '\x0c' || c == '\r' ||
  c == '\x1c' || c == '\x1d' || c == '\x1e' || c == '\x1f' || c == '\x85' ||
  c == '\xa0' || c == ' ' || (' ' ≤ c && c ≤ ' ') ||
  c == ' ' || c == ' ' || c == ' ' || c == ' ' || c == '　'

/-- The line-boundary characters of Python's `str.splitlines`
(besides the two-character boundary `"\r\n"`, handled separately). -/
def isPyLineBreak (c : Char) : Bool :=
  c == '\n' || c == '\r' || c == '\x0b' || c == '\x0c' ||
  c == '\x1c' || c == '\x1d' || c == '\x1e' || c == '\x85' ||
  c == ' ' || c == ' '

/-- Python `str.lstrip()` (no argument): drop leading whitespace. -/
def pyLstrip (s : List Char) : List Char := s.dropWhile isPySpace

/-- Python `str.rstrip()` (no argument): drop trailing whitespace. -/
def pyRstrip (s : List Char) : List Char := (s.reverse.dropWhile isPySpace).reverse

/-- Python `str.strip()` (no argument). -/
def pyStrip (s : List Char) : List Char := pyRstrip (pyLstrip s)

/-- The non-whitespace content of a string, used to state conservation of
non-whitespace characters. -/
def filterNW (s : List Char) : List Char := s.filter (fun c => !(isPySpace c))

/-- Helper for `splitlinesKeepends`: `acc` is the current (reversed) partial
line.  Mirrors Python `str.splitlines(keepends=True)`, including the
two-character `"\r\n"` boundary. -/
def splitlinesAux : List Char → List Char → List (List Char)
  | [], acc => if acc.isEmpty then [] else [acc.reverse]
  | [c], acc =>
    if isPyLineBreak c then [acc.reverse ++ [c]]
    else [(c :: acc).reverse]
  | c :: c2 :: rest, acc =>
    if c = '\r' then
      if c2 = '\n' then (acc.reverse ++ ['\r', '\n']) :: splitlinesAux rest []
      else (acc.reverse ++ ['\r']) :: splitlinesAux (c2 :: rest) []
    else if isPyLineBreak c then
      (acc.reverse ++ [c]) :: splitlinesAux (c2 :: rest) []
    else
      splitlinesAux (c2 :: rest) (c :: acc)

/-- Python `message.splitlines(keepends=True)` (line 316 of the source). -/
def splitlinesKeepends (s : List Char) : List (List Char) := splitlinesAux s []

/-- Python `s.rfind(c)`: the index of the last occurrence of `c` in `s`,
`none` standing for Python's `-1`. -/
def rfindChar : List Char → Char → Option Nat
  | [], _ => none
  | a :: rest, c =>
    match rfindChar rest c with
    | some i => some (i + 1)
    | none => if a = c then some 0 else none

/-- The split index chosen by lines 333-335 of the source:
`split_at = current_chunk[:limit].rfind(" ")`, forced to `limit` when no
space is found or the space is before `limit // 2`. -/
def chooseSplit (chunk : List Char) (limit : Nat) : Nat :=
  match rfindChar (chunk.take limit) ' ' with
  | none => limit
  | some i => if i < limit / 2 then limit else i

/-- The body of the inner `while len(current_chunk) > limit` loop of
`split_message` (lines 331-338), run at most `fuel` times: returns the
emitted prefix chunks and the final buffer.  When `1 ≤ limit` each
iteration strictly shrinks the buffer (see `carve_progress`), so any
`fuel ≥ chunk.length` makes this exactly the Python loop, which diverges
for `limit = 0`. -/
def carveFuel : Nat → List Char → Nat → List (List Char) × List Char
  | 0, chunk, _ => ([], chunk)
  | fuel + 1, chunk, limit =>
    if limit < chunk.length then
      let s := chooseSplit chunk limit
      let post := pyLstrip (chunk.drop s)
      let r := carveFuel fuel post limit
      (chunk.take s :: r.1, r.2)
    else ([], chunk)

/-- The inner carving loop of `split_message`, with the (sufficient)
fuel `chunk.length`. -/
def carve (chunk : List Char) (limit : Nat) : List (List Char) × List Char :=
  carveFuel chunk.length chunk limit

/-- The `for line in lines` loop of `split_message` (lines 318-338), with
`cur` the running `current_chunk`: returns the accumulated chunk list and
the final buffer. -/
def processLines (lines : List (List Char)) (cur : List Char) (limit : Nat) :
    List (List Char) × List Char :=
  match lines with
  | [] => ([], cur)
  | line :: rest =>
    let step :=
      if limit < cur.length + line.length then
        ((if cur.isEmpty then [] else [cur]), line)
      else ([], cur ++ line)
    let carved := carve step.2 limit
    let tl := processLines rest carved.2 limit
    (step.1 ++ carved.1 ++ tl.1, tl.2)

/-- Python `split_message(message, limit)` (lines 308-345 of the source). -/
def split_message (message : List Char) (limit : Nat) : List (List Char) :=
  if message.length ≤ limit then [message]
  else
    let lines := splitlinesKeepends message
    let r := processLines lines [] limit
    let chunks := r.1 ++ (if r.2.isEmpty then [] else [r.2])
    (chunks.filter (fun c => !(pyStrip c).isEmpty)).map pyStrip

/-- Position-based splitting into pieces of exactly `limit` characters
(except the final piece), with explicit fuel: the reference behaviour
claimed for a message with no split opportunities. -/
def positionalChunksFuel : Nat → List Char → Nat → List (List Char)
  | 0, s, _ => [s]
  | fuel + 1, s, limit =>
    if s.length ≤ limit ∨ limit = 0 then [s]
    else s.take limit :: positionalChunksFuel fuel (s.drop limit) limit

/-- Position-based splitting into pieces of exactly `limit` characters
(except the final piece). -/
def positionalChunks (s : List Char) (limit : Nat) : List (List Char) :=
  positionalChunksFuel s.length s limit

/-- Discord character limit (line 117 of the source). -/
def DISCORD_CHAR_LIMIT : Nat := 2000

/-- The `for i, chunk in enumerate(message_chunks)` loop of
`send_to_discord` (lines 368-396), with the HTTP post abstracted as an
oracle `post : Nat → Bool` telling whether posting chunk number `i`
succeeds (a `2xx` response) or fails (non-`2xx` or transport error, both
raising `RequestException` via `raise_for_status`).  Returns the
`success` flag and the list of chunk indices actually posted. -/
def sendLoop (post : Nat → Bool) : List (List Char) → Nat → Bool × List Nat
  | [], _ => (true, [])
  | _ :: rest, i =>
    if post i then
      let r := sendLoop post rest (i + 1)
      (r.1, i :: r.2)
    else (false, [i])

/-- Python `send_to_discord(webhook_url, message)` (lines 348-396): splits the
message at `DISCORD_CHAR_LIMIT - 20` and posts the chunks in order,
stopping at the first failure.  Returns the success flag paired with the
indices of the chunks that were attempted. -/
def send_to_discord_run (post : Nat → Bool) (webhookSet : Bool) (message : List Char) :
    Bool × List Nat :=
  if !webhookSet then (false, [])
  else if (split_message message (DISCORD_CHAR_LIMIT - 20)).length = 0 then (false, [])
  else sendLoop post (split_message message (DISCORD_CHAR_LIMIT - 20)) 0

/-- The boolean result of `send_to_discord`. -/
def send_to_discord (post : Nat → Bool) (webhookSet : Bool) (message : List Char) : Bool :=
  (send_to_discord_run post webhookSet message).1

/-- The chunk indices `send_to_discord` attempts to post. -/
def send_to_discord_attempted (post : Nat → Bool) (webhookSet : Bool)
    (message : List Char) : List Nat :=
  (send_to_discord_run post webhookSet message).2

/-- The fields of a `git.Commit` object used by the formatters. -/
structure Commit where
  hexsha : String
  message : String
  authorName : String


/-- Python `message.split('\n')[0]`: the text before the first newline. -/
def firstLine (s : String) : String := s.takeWhile (fun c => c ≠ '\n')

/-- Python `format_commits_basic(commits)` (lines 293-306), with `today` standing
for `datetime.now().strftime('%Y-%m-%d')`. -/
def format_commits_basic (commits : List Commit) (today : String) : String :=
  if commits.isEmpty then
    "No new commits found in the specified period."
  else
    let header := "**Commit Summary (" ++ today ++ ")**\n\n" ++
      "Found " ++ toString commits.length ++ " commits:\n"
    commits.foldl
      (fun summary c =>
        summary ++ "- `" ++ (c.hexsha.take 7) ++ "`: " ++ firstLine c.message ++
          " (by " ++ c.authorName ++ ")\n")
      header

/-- The possible outcomes of the Gemini chat-completion call made inside
`summarize_commits_with_ai`. -/
inductive AiOutcome where
  | ok (content : String)
  | badStructure
  | apiError
  | otherError


/-- Python `summarize_commits_with_ai(commits_data, project_context)`
(lines 175-291): the empty-batch short-circuit and the fallback structure,
with the network call abstracted as `outcome` and `geminiKey` standing for
the `GEMINI_API_KEY` environment variable. -/
def summarize_commits_with_ai (commits : List Commit) (geminiKey : Option String)
    (outcome : AiOutcome) (today : String) : String :=
  if commits.isEmpty then
    "No new commits found in the specified period."
  else
    match geminiKey with
    | none => format_commits_basic commits today
    | some _ =>
      match outcome with
      | .ok content => content.trim
      | _ => format_commits_basic commits today

/-- Raw data of one commit as read from the repository. -/
structure RawCommit where
  hexsha : String
  message : String
  authorName : String
  diffResult : Except String String


/-- One entry of the list built by `get_commits_since`. -/
structure CommitData where
  commit : RawCommit
  diff_summary : String


/-- Python `get_commits_since(repo_path, since_date)` (lines 123-159): opening and
querying the repository is abstracted as `repoAccess` (`Except.error` when
`Repo(repo_path)` or `iter_commits` raises; the whole body is wrapped in
`try/except` returning `[]`).  Each commit's diff lookup may itself fail,
in which case the default `"Diff not available."` is kept (inner
`try/except`, lines 136-146). -/
def get_commits_since (repoAccess : Except String (List RawCommit)) : List CommitData :=
  match repoAccess with
  | .error _ => []
  | .ok commits =>
    commits.map (fun c =>
      { commit := c
        diff_summary :=
          (match c.diffResult with
           | .ok d => d
           | .error _ => "Diff not available.").trim })

/-- Python `timedelta(days=d).total_seconds()`. -/
def timedeltaDays (d : Int) : Int := d * 86400

/-- Python `timedelta(weeks=w).total_seconds()`. -/
def timedeltaWeeks (w : Int) : Int := w * 7 * 86400

/-- Python `get_start_date(frequency)` (lines 398-410), with `now` the current
time as seconds on a linear clock. -/
def get_start_date (frequency : String) (now : Int) : Int :=
  if frequency = "daily" then now - timedeltaDays 1
  else if frequency = "weekly" then now - timedeltaWeeks 1
  else if frequency = "monthly" then now - timedeltaDays 30
  else now - timedeltaWeeks 1

/-! ### Basic lemmas about the Python string primitives -/

theorem isPySpace_of_isPyLineBreak {c : Char} (h : isPyLineBreak c = true) :
    isPySpace c = true := by
  simp only [isPyLineBreak, Bool.or_eq_true, beq_iff_eq] at h
  rcases h with ((((((((h | h) | h) | h) | h) | h) | h) | h) | h) | h <;> subst h <;> decide

theorem filterNW_append (a b : List Char) :
    filterNW (a ++ b) = filterNW a ++ filterNW b :=
  List.filter_append a b

theorem filterNW_reverse (s : List Char) :
    filterNW s.reverse = (filterNW s).reverse :=
  List.filter_reverse _ s

theorem filterNW_dropWhile (s : List Char) :
    filterNW (s.dropWhile isPySpace) = filterNW s := by
  induction s with
  | nil => rfl
  | cons c t ih =>
    by_cases hc : isPySpace c
    · rw [List.dropWhile_cons, if_pos hc, ih]
      simp [filterNW, List.filter_cons, hc]
    · rw [List.dropWhile_cons, if_neg hc]

theorem filterNW_pyLstrip (s : List Char) : filterNW (pyLstrip s) = filterNW s :=
  filterNW_dropWhile s

theorem filterNW_pyRstrip (s : List Char) : filterNW (pyRstrip s) = filterNW s := by
  unfold pyRstrip
  rw [filterNW_reverse, filterNW_dropWhile, filterNW_reverse, List.reverse_reverse]

theorem filterNW_pyStrip (s : List Char) : filterNW (pyStrip s) = filterNW s := by
  unfold pyStrip
  rw [filterNW_pyRstrip, filterNW_pyLstrip]

theorem filterNW_eq_nil_of_pyStrip_nil {s : List Char} (h : pyStrip s = []) :
    filterNW s = [] := by
  rw [← filterNW_pyStrip, h]; rfl

theorem dropWhile_length_le (p : Char → Bool) (s : List Char) :
    (s.dropWhile p).length ≤ s.length :=
  (List.dropWhile_sublist p).length_le

theorem pyLstrip_length_le (s : List Char) : (pyLstrip s).length ≤ s.length :=
  dropWhile_length_le _ s

theorem pyStrip_length_le (s : List Char) : (pyStrip s).length ≤ s.length := by
  unfold pyStrip pyRstrip
  calc ((pyLstrip s).reverse.dropWhile isPySpace).reverse.length
      = ((pyLstrip s).reverse.dropWhile isPySpace).length := List.length_reverse _
    _ ≤ (pyLstrip s).reverse.length := dropWhile_length_le _ _
    _ = (pyLstrip s).length := List.length_reverse _
    _ ≤ s.length := pyLstrip_length_le s

theorem dropWhile_eq_cons_head {p : Char → Bool} :
    ∀ {s : List Char} {c : Char} {t : List Char}, s.dropWhile p = c :: t → p c = false := by
  intro s
  induction s with
  | nil => intro c t h; simp at h
  | cons a u ih =>
    intro c t h
    rw [List.dropWhile_cons] at h
    by_cases ha : p a
    · rw [if_pos ha] at h; exact ih h
    · rw [if_neg ha] at h
      obtain ⟨rfl, -⟩ := List.cons.inj h
      exact Bool.eq_false_iff.mpr ha

theorem exists_nonspace_of_pyStrip_ne_nil {s : List Char} (h : pyStrip s ≠ []) :
    ∃ c ∈ pyStrip s, isPySpace c = false := by
  unfold pyStrip pyRstrip at *
  cases hd : (pyLstrip s).reverse.dropWhile isPySpace with
  | nil => rw [hd] at h; simp at h
  | cons c t =>
    refine ⟨c, ?_, dropWhile_eq_cons_head hd⟩
    simp

theorem dropWhile_eq_self_of_nospace {p : Char → Bool} {s : List Char}
    (h : ∀ c ∈ s, p c = false) : s.dropWhile p = s := by
  cases s with
  | nil => rfl
  | cons c t =>
    rw [List.dropWhile_cons, if_neg]
    simp [h c (List.mem_cons_self c t)]

theorem pyStrip_eq_self_of_nospace {s : List Char}
    (h : ∀ c ∈ s, isPySpace c = false) : pyStrip s = s := by
  unfold pyStrip pyLstrip pyRstrip
  rw [dropWhile_eq_self_of_nospace h, dropWhile_eq_self_of_nospace, List.reverse_reverse]
  intro c hc
  exact h c (List.mem_reverse.mp hc)

/-! ### Lemmas about `splitlinesKeepends` -/

theorem splitlinesAux_flatten (s acc : List Char) :
    (splitlinesAux s acc).flatten = acc.reverse ++ s := by
  induction s, acc using splitlinesAux.induct with
  | case1 acc h => simp [splitlinesAux, h, List.isEmpty_iff.mp h]
  | case2 acc h => simp [splitlinesAux, h]
  | case3 c acc h => simp [splitlinesAux, h]
  | case4 c acc h => simp [splitlinesAux, h]
  | case5 rest acc ih => simp [splitlinesAux, ih]
  | case6 c2 rest acc h ih => simp [splitlinesAux, h, ih]
  | case7 c c2 rest acc h1 h2 ih => simp [splitlinesAux, h1, h2, ih]
  | case8 c c2 rest acc h1 h2 ih => simp [splitlinesAux, h1, h2, ih]

theorem splitlinesKeepends_flatten (s : List Char) :
    (splitlinesKeepends s).flatten = s := by
  unfold splitlinesKeepends
  rw [splitlinesAux_flatten]
  rfl

theorem splitlinesAux_nobreak :
    ∀ s acc, (∀ c ∈ s, isPyLineBreak c = false) → s ≠ [] →
      splitlinesAux s acc = [acc.reverse ++ s] := by
  intro s
  induction s with
  | nil => intro acc _ hne; exact absurd rfl hne
  | cons c t ih =>
    intro acc h _
    have hc : isPyLineBreak c = false := h c (List.mem_cons_self c t)
    have hcr : c ≠ '\r' := by
      intro hrfl; subst hrfl; simp [isPyLineBreak] at hc
    cases t with
    | nil => simp [splitlinesAux, hc]
    | cons c2 u =>
      have hrec := ih (c :: acc) (fun x hx => h x (List.mem_cons_of_mem c hx))
        (List.cons_ne_nil c2 u)
      simp only [splitlinesAux, if_neg hcr, hc, if_neg (by simp : ¬(false = true))]
      rw [hrec]
      simp

/-! ### Lemmas about `rfindChar`, `chooseSplit` and the carving loop -/

theorem rfindChar_getElem :
    ∀ {s : List Char} {c : Char} {i : Nat}, rfindChar s c = some i → s[i]? = some c := by
  intro s
  induction s with
  | nil => intro c i h; simp [rfindChar] at h
  | cons a rest ih =>
    intro c i h
    rw [rfindChar] at h
    cases hr : rfindChar rest c with
    | some j =>
      rw [hr] at h
      obtain rfl : j + 1 = i := by simpa using h
      simpa using ih hr
    | none =>
      rw [hr] at h
      by_cases ha : a = c
      · rw [if_pos ha] at h
        obtain rfl : (0 : Nat) = i := by simpa using h
        simpa using ha
      · rw [if_neg ha] at h; simp at h

theorem rfindChar_lt_length {s : List Char} {c : Char} {i : Nat}
    (h : rfindChar s c = some i) : i < s.length := by
  have := rfindChar_getElem h
  exact (List.getElem?_eq_some.mp this).1

theorem rfindChar_eq_none_of_not_mem {s : List Char} {c : Char} (h : c ∉ s) :
    rfindChar s c = none := by
  cases hr : rfindChar s c with
  | none => rfl
  | some i =>
    have hg := rfindChar_getElem hr
    obtain ⟨hlt, hget⟩ := List.getElem?_eq_some.mp hg
    exact absurd (hget ▸ List.getElem_mem hlt) h

theorem chooseSplit_le (chunk : List Char) (limit : Nat) :
    chooseSplit chunk limit ≤ limit := by
  unfold chooseSplit
  cases hr : rfindChar (chunk.take limit) ' ' with
  | none => exact Nat.le_refl limit
  | some i =>
    show (if i < limit / 2 then limit else i) ≤ limit
    by_cases hi : i < limit / 2
    · rw [if_pos hi]
    · rw [if_neg hi]
      have := rfindChar_lt_length hr
      rw [List.length_take] at this
      omega

theorem chooseSplit_eq_zero {chunk : List Char} {limit : Nat} (hl : 1 ≤ limit)
    (h : chooseSplit chunk limit = 0) : chunk.headI = ' ' ∧ chunk ≠ [] := by
  unfold chooseSplit at h
  cases hr : rfindChar (chunk.take limit) ' ' with
  | none =>
    rw [hr] at h
    have hz : limit = 0 := h
    omega
  | some i =>
    rw [hr] at h
    have h' : (if i < limit / 2 then limit else i) = 0 := h
    by_cases hi : i < limit / 2
    · rw [if_pos hi] at h'; omega
    · rw [if_neg hi] at h'
      subst h'
      have hg := rfindChar_getElem hr
      rw [List.getElem?_take] at hg
      rw [if_pos (show 0 < limit by omega)] at hg
      cases chunk with
      | nil => simp at hg
      | cons a t =>
        refine ⟨?_, List.cons_ne_nil a t⟩
        simpa [List.headI] using hg

theorem carve_progress {chunk : List Char} {limit : Nat} (hl : 1 ≤ limit)
    (hc : limit < chunk.length) :
    (pyLstrip (chunk.drop (chooseSplit chunk limit))).length < chunk.length := by
  rcases Nat.eq_zero_or_pos (chooseSplit chunk limit) with h0 | hpos
  · obtain ⟨hhead, hne⟩ := chooseSplit_eq_zero hl h0
    cases chunk with
    | nil => exact absurd rfl hne
    | cons a t =>
      have ha : a = ' ' := by simpa [List.headI] using hhead
      subst ha
      rw [h0, List.drop_zero]
      calc (pyLstrip (' ' :: t)).length
          = (t.dropWhile isPySpace).length := by
            unfold pyLstrip
            rw [List.dropWhile_cons, if_pos (by decide)]
        _ ≤ t.length := dropWhile_length_le _ t
        _ < (' ' :: t).length := by simp
  · have h1 : (chunk.drop (chooseSplit chunk limit)).length
        = chunk.length - chooseSplit chunk limit := List.length_drop _ _
    have h2 := pyLstrip_length_le (chunk.drop (chooseSplit chunk limit))
    omega

theorem carveFuel_succ (fuel : Nat) (chunk : List Char) (limit : Nat) :
    carveFuel (fuel + 1) chunk limit =
      if limit < chunk.length then
        (chunk.take (chooseSplit chunk limit) ::
            (carveFuel fuel (pyLstrip (chunk.drop (chooseSplit chunk limit))) limit).1,
          (carveFuel fuel (pyLstrip (chunk.drop (chooseSplit chunk limit))) limit).2)
      else ([], chunk) := rfl

theorem carveFuel_congr {limit : Nat} (hl : 1 ≤ limit) :
    ∀ f1 f2 (chunk : List Char), chunk.length ≤ f1 → chunk.length ≤ f2 →
      carveFuel f1 chunk limit = carveFuel f2 chunk limit := by
  intro f1
  induction f1 with
  | zero =>
    intro f2 chunk h1 _
    obtain rfl : chunk = [] := List.length_eq_zero.mp (Nat.le_zero.mp h1)
    cases f2 with
    | zero => rfl
    | succ m => rw [carveFuel_succ, if_neg (by simp)]; rfl
  | succ n ih =>
    intro f2 chunk h1 h2
    cases f2 with
    | zero =>
      obtain rfl : chunk = [] := List.length_eq_zero.mp (Nat.le_zero.mp h2)
      rw [carveFuel_succ, if_neg (by simp)]; rfl
    | succ m =>
      rw [carveFuel_succ, carveFuel_succ]
      by_cases hc : limit < chunk.length
      · rw [if_pos hc, if_pos hc]
        have hprog := carve_progress hl hc
        rw [ih m (pyLstrip (chunk.drop (chooseSplit chunk limit))) (by omega) (by omega)]
      · rw [if_neg hc, if_neg hc]

theorem carveFuel_spec {limit : Nat} (hl : 1 ≤ limit) :
    ∀ fuel (chunk : List Char), chunk.length ≤ fuel →
      (∀ c ∈ (carveFuel fuel chunk limit).1, c.length ≤ limit) ∧
      (carveFuel fuel chunk limit).2.length ≤ limit ∧
      filterNW ((carveFuel fuel chunk limit).1.flatten ++ (carveFuel fuel chunk limit).2) =
        filterNW chunk := by
  intro fuel
  induction fuel with
  | zero =>
    intro chunk h
    obtain rfl : chunk = [] := List.length_eq_zero.mp (Nat.le_zero.mp h)
    exact ⟨by simp [carveFuel], by simp [carveFuel], by simp [carveFuel]⟩
  | succ n ih =>
    intro chunk h
    by_cases hc : limit < chunk.length
    · have hprog := carve_progress hl hc
      obtain ⟨ih1, ih2, ih3⟩ := ih (pyLstrip (chunk.drop (chooseSplit chunk limit))) (by omega)
      rw [carveFuel_succ, if_pos hc]
      refine ⟨?_, ih2, ?_⟩
      · intro c hcm
        rcases List.mem_cons.mp hcm with rfl | hcm
        · rw [List.length_take]
          have := chooseSplit_le chunk limit
          omega
        · exact ih1 c hcm
      · rw [List.flatten_cons, List.append_assoc, filterNW_append, ih3,
          filterNW_pyLstrip, ← filterNW_append, List.take_append_drop]
    · rw [carveFuel_succ, if_neg hc]
      exact ⟨by simp, by simp; omega, by simp⟩

theorem carve_spec {limit : Nat} (hl : 1 ≤ limit) (chunk : List Char) :
    (∀ c ∈ (carve chunk limit).1, c.length ≤ limit) ∧
    (carve chunk limit).2.length ≤ limit ∧
    filterNW ((carve chunk limit).1.flatten ++ (carve chunk limit).2) = filterNW chunk :=
  carveFuel_spec hl chunk.length chunk (Nat.le_refl _)

/-! ### The outer accumulation loop and `split_message` -/

theorem processLines_cons (line : List Char) (rest : List (List Char)) (cur : List Char)
    (limit : Nat) :
    processLines (line :: rest) cur limit =
      ((if limit < cur.length + line.length then (if cur.isEmpty then [] else [cur]) else []) ++
        (carve (if limit < cur.length + line.length then line else cur ++ line) limit).1 ++
        (processLines rest
          (carve (if limit < cur.length + line.length then line else cur ++ line) limit).2
          limit).1,
       (processLines rest
          (carve (if limit < cur.length + line.length then line else cur ++ line) limit).2
          limit).2) := by
  show (let step := if limit < cur.length + line.length then
          ((if cur.isEmpty then [] else [cur]), line)
        else ([], cur ++ line)
        let carved := carve step.2 limit
        let tl := processLines rest carved.2 limit
        (step.1 ++ carved.1 ++ tl.1, tl.2)) = _
  by_cases h : limit < cur.length + line.length
  · simp only [if_pos h]
  · simp only [if_neg h]

theorem processLines_spec {limit : Nat} (hl : 1 ≤ limit) :
    ∀ (lines : List (List Char)) (cur : List Char), cur.length ≤ limit →
      (∀ c ∈ (processLines lines cur limit).1, c.length ≤ limit) ∧
      (processLines lines cur limit).2.length ≤ limit ∧
      filterNW ((processLines lines cur limit).1.flatten ++ (processLines lines cur limit).2) =
        filterNW (cur ++ lines.flatten) := by
  intro lines
  induction lines with
  | nil =>
    intro cur h
    refine ⟨by simp [processLines], by simpa [processLines] using h, ?_⟩
    simp [processLines]
  | cons line rest ih =>
    intro cur h
    rw [processLines_cons]
    by_cases hov : limit < cur.length + line.length
    · simp only [if_pos hov]
      obtain ⟨c1, c2, c3⟩ := carve_spec hl line
      obtain ⟨i1, i2, i3⟩ := ih (carve line limit).2 c2
      refine ⟨?_, i2, ?_⟩
      · intro c hc
        rcases List.mem_append.mp hc with hc' | hc'
        · rcases List.mem_append.mp hc' with hc'' | hc''
          · by_cases hemp : cur.isEmpty
            · rw [if_pos hemp] at hc''; simp at hc''
            · rw [if_neg hemp] at hc''
              obtain rfl : c = cur := by simpa using hc''
              exact h
          · exact c1 c hc''
        · exact i1 c hc'
      · have hpre : filterNW (if cur.isEmpty then ([] : List (List Char)) else [cur]).flatten
            = filterNW cur := by
          by_cases hemp : cur.isEmpty
          · rw [if_pos hemp, List.isEmpty_iff.mp hemp]; rfl
          · rw [if_neg hemp]; simp
        have c3' := c3
        rw [filterNW_append] at c3'
        have i3' := i3
        rw [filterNW_append, filterNW_append] at i3'
        simp only [List.flatten_append, List.flatten_cons, filterNW_append, List.append_assoc]
        simp only [List.flatten_append, filterNW_append, List.append_assoc] at hpre
        rw [hpre, i3', ← List.append_assoc (filterNW (carve line limit).1.flatten), c3']
    · simp only [if_neg hov]
      obtain ⟨c1, c2, c3⟩ := carve_spec hl (cur ++ line)
      obtain ⟨i1, i2, i3⟩ := ih (carve (cur ++ line) limit).2 c2
      refine ⟨?_, i2, ?_⟩
      · intro c hc
        rcases List.mem_append.mp hc with hc' | hc'
        · rcases List.mem_append.mp hc' with hc'' | hc''
          · simp at hc''
          · exact c1 c hc''
        · exact i1 c hc'
      · have c3' := c3
        rw [filterNW_append, filterNW_append] at c3'
        have i3' := i3
        rw [filterNW_append, filterNW_append] at i3'
        simp only [List.nil_append, List.flatten_append, List.flatten_cons, filterNW_append,
          List.append_assoc]
        rw [i3', ← List.append_assoc (filterNW (carve (cur ++ line) limit).1.flatten), c3']
        simp [List.append_assoc]

theorem split_message_long {msg : List Char} {limit : Nat} (h : limit < msg.length) :
    split_message msg limit =
      (((processLines (splitlinesKeepends msg) [] limit).1 ++
          (if (processLines (splitlinesKeepends msg) [] limit).2.isEmpty then []
           else [(processLines (splitlinesKeepends msg) [] limit).2])).filter
        (fun c => !(pyStrip c).isEmpty)).map pyStrip := by
  unfold split_message
  rw [if_neg (by omega)]

theorem stripFilter_filterNW :
    ∀ l : List (List Char),
      filterNW (((l.filter (fun c => !(pyStrip c).isEmpty)).map pyStrip).flatten) =
        filterNW l.flatten := by
  intro l
  induction l with
  | nil => rfl
  | cons c t ih =>
    by_cases hc : (pyStrip c).isEmpty
    · rw [List.filter_cons, if_neg (by simp [hc])]
      rw [List.flatten_cons, filterNW_append,
        filterNW_eq_nil_of_pyStrip_nil (List.isEmpty_iff.mp hc), List.nil_append]
      exact ih
    · rw [List.filter_cons, if_pos (by simp [hc])]
      rw [List.map_cons, List.flatten_cons, List.flatten_cons, filterNW_append,
        filterNW_append, filterNW_pyStrip, ih]

/-! ### Claim theorems about `split_message` -/

/-- C1: for every message string `M` and every positive integer `limit`,
every chunk in the list returned by `split_message(M, limit)` has length
at most `limit` characters. -/
theorem C1_split_message_chunk_length_le (msg : List Char) (limit : Nat) (hl : 1 ≤ limit) :
    ∀ chunk ∈ split_message msg limit, chunk.length ≤ limit := by
  intro chunk hc
  by_cases hle : msg.length ≤ limit
  · unfold split_message at hc
    rw [if_pos hle] at hc
    obtain rfl : chunk = msg := by simpa using hc
    exact hle
  · rw [split_message_long (by omega)] at hc
    obtain ⟨c, hcf, rfl⟩ := List.mem_map.mp hc
    have hcm := List.mem_of_mem_filter hcf
    obtain ⟨s1, s2, -⟩ := processLines_spec hl (splitlinesKeepends msg) [] (by simp)
    rcases List.mem_append.mp hcm with h1 | h2
    · exact le_trans (pyStrip_length_le c) (s1 c h1)
    · by_cases he : (processLines (splitlinesKeepends msg) [] limit).2.isEmpty
      · rw [if_pos he] at h2; simp at h2
      · rw [if_neg he] at h2
        obtain rfl : c = (processLines (splitlinesKeepends msg) [] limit).2 := by
          simpa using h2
        exact le_trans (pyStrip_length_le _) s2

/-- Witness for C1 at `msg = "abcde"`, `limit = 2`. -/
theorem C1_witness :
    1 ≤ 2 ∧ ∀ chunk ∈ split_message ['a', 'b', 'c', 'd', 'e'] 2, chunk.length ≤ 2 :=
  ⟨by decide, C1_split_message_chunk_length_le ['a', 'b', 'c', 'd', 'e'] 2 (by decide)⟩

/-- C2: for every message string `M` and every positive integer `limit`,
the chunks of `split_message(M, limit)`, concatenated in order, carry
exactly the non-whitespace characters of `M` in their original order
(no non-whitespace character is lost or added). -/
theorem C2_split_message_preserves_content (msg : List Char) (limit : Nat) (hl : 1 ≤ limit) :
    filterNW (split_message msg limit).flatten = filterNW msg := by
  by_cases hle : msg.length ≤ limit
  · unfold split_message
    rw [if_pos hle]
    simp
  · rw [split_message_long (by omega)]
    rw [stripFilter_filterNW]
    obtain ⟨-, -, s3⟩ := processLines_spec hl (splitlinesKeepends msg) [] (by simp)
    rw [List.nil_append, splitlinesKeepends_flatten] at s3
    rw [List.flatten_append]
    by_cases he : (processLines (splitlinesKeepends msg) [] limit).2.isEmpty
    · rw [if_pos he]
      rw [List.isEmpty_iff.mp he, List.append_nil] at s3
      simpa using s3
    · rw [if_neg he]
      simpa using s3

/-- Witness for C2 at `msg = "a b"`, `limit = 1`. -/
theorem C2_witness :
    1 ≤ 1 ∧ filterNW (split_message ['a', ' ', 'b'] 1).flatten = filterNW ['a', ' ', 'b'] :=
  ⟨by decide, C2_split_message_preserves_content ['a', ' ', 'b'] 1 (by decide)⟩

/-- Counterexample to C3 as stated: a message that fits within the limit is
returned verbatim by the early return at line 310-311 of the source, so an
empty message yields the single empty chunk and the one-space message
yields a whitespace-only chunk. -/
theorem C3_counterexample :
    split_message [] 1 = [[]] ∧ split_message [' '] 1 = [[' ']] ∧ isPySpace ' ' = true := by
  decide

/-- C3 (amended): for every message string `M` strictly longer than the
positive limit, no chunk returned by `split_message(M, limit)` is empty or
consists only of whitespace characters.  (When `M` fits within the limit
it is returned as the single chunk verbatim, so it may be empty or
whitespace-only.) -/
theorem C3_split_message_chunks_not_blank (msg : List Char) (limit : Nat) (hl : 1 ≤ limit)
    (hlen : limit < msg.length) :
    ∀ chunk ∈ split_message msg limit, chunk ≠ [] ∧ ∃ c ∈ chunk, isPySpace c = false := by
  intro chunk hc
  rw [split_message_long hlen] at hc
  obtain ⟨c, hcf, rfl⟩ := List.mem_map.mp hc
  have hkeep := List.of_mem_filter hcf
  have hne : pyStrip c ≠ [] := by
    intro hnil
    rw [hnil] at hkeep
    simp at hkeep
  exact ⟨hne, exists_nonspace_of_pyStrip_ne_nil hne⟩

/-- Witness for the amended C3 at `msg = "ab"`, `limit = 1`. -/
theorem C3_witness :
    1 ≤ 1 ∧ 1 < 2 ∧
      ∀ chunk ∈ split_message ['a', 'b'] 1, chunk ≠ [] ∧ ∃ c ∈ chunk, isPySpace c = false :=
  ⟨by decide, by decide,
    C3_split_message_chunks_not_blank ['a', 'b'] 1 (by decide) (by decide)⟩

/-- Counterexample to C4 as stated: for `M = " a "` and `limit = 5` the
function returns `[" a "]`, the message *untrimmed*, not `["a"]`. -/
theorem C4_counterexample :
    split_message [' ', 'a', ' '] 5 = [[' ', 'a', ' ']] ∧
      pyStrip [' ', 'a', ' '] = ['a'] ∧
      split_message [' ', 'a', ' '] 5 ≠ [pyStrip [' ', 'a', ' ']] := by
  decide

/-- C4 (amended): for every message string `M` whose length is at most
`limit`, `split_message(M, limit)` returns the single-element list
containing `M` exactly as given (without trimming surrounding
whitespace). -/
theorem C4_split_message_short_returns_verbatim (msg : List Char) (limit : Nat)
    (h : msg.length ≤ limit) : split_message msg limit = [msg] := by
  unfold split_message
  rw [if_pos h]

/-- Witness for the amended C4 at `msg = " a"`, `limit = 3`. -/
theorem C4_witness :
    ([' ', 'a'] : List Char).length ≤ 3 ∧ split_message [' ', 'a'] 3 = [[' ', 'a']] :=
  ⟨by decide, C4_split_message_short_returns_verbatim [' ', 'a'] 3 (by decide)⟩

/-- C10: for every buffer and positive limit, each iteration of the inner
carving loop strictly shrinks the buffer (by emitting a prefix of at
least one character, or by stripping leading whitespace when the chosen
split index is 0), so `split_message` terminates: one unfoldable step of
`carve` always reaches a strictly shorter buffer. -/
theorem C10_carve_step_shrinks (chunk : List Char) (limit : Nat) (hl : 1 ≤ limit)
    (hc : limit < chunk.length) :
    (pyLstrip (chunk.drop (chooseSplit chunk limit))).length < chunk.length ∧
      (1 ≤ chooseSplit chunk limit ∨
        (chooseSplit chunk limit = 0 ∧ chunk.headI = ' ')) ∧
      carve chunk limit =
        (chunk.take (chooseSplit chunk limit) ::
            (carve (pyLstrip (chunk.drop (chooseSplit chunk limit))) limit).1,
          (carve (pyLstrip (chunk.drop (chooseSplit chunk limit))) limit).2) := by
  have hprog := carve_progress hl hc
  refine ⟨hprog, ?_, ?_⟩
  · rcases Nat.eq_zero_or_pos (chooseSplit chunk limit) with h0 | hpos
    · exact Or.inr ⟨h0, (chooseSplit_eq_zero hl h0).1⟩
    · exact Or.inl hpos
  · obtain ⟨n, hn⟩ : ∃ n, chunk.length = n + 1 := ⟨chunk.length - 1, by omega⟩
    show carveFuel chunk.length chunk limit = _
    rw [hn, carveFuel_succ, if_pos hc]
    rw [carveFuel_congr hl n (pyLstrip (chunk.drop (chooseSplit chunk limit))).length
      (pyLstrip (chunk.drop (chooseSplit chunk limit))) (by omega) (Nat.le_refl _)]
    rfl

/-- Witness for C10 at `chunk = "ab"`, `limit = 1`. -/
theorem C10_witness :
    1 ≤ 1 ∧ 1 < ([' ', 'a', 'b'] : List Char).length ∧
      ((pyLstrip ([' ', 'a', 'b'].drop (chooseSplit [' ', 'a', 'b'] 1))).length <
          ([' ', 'a', 'b'] : List Char).length ∧
        (1 ≤ chooseSplit [' ', 'a', 'b'] 1 ∨
          (chooseSplit [' ', 'a', 'b'] 1 = 0 ∧ ([' ', 'a', 'b'] : List Char).headI = ' ')) ∧
        carve [' ', 'a', 'b'] 1 =
          ([' ', 'a', 'b'].take (chooseSplit [' ', 'a', 'b'] 1) ::
              (carve (pyLstrip ([' ', 'a', 'b'].drop (chooseSplit [' ', 'a', 'b'] 1))) 1).1,
            (carve (pyLstrip ([' ', 'a', 'b'].drop (chooseSplit [' ', 'a', 'b'] 1))) 1).2)) :=
  ⟨by decide, by decide, C10_carve_step_shrinks [' ', 'a', 'b'] 1 (by decide) (by decide)⟩

/-! ### Positional splitting of space-free messages (C5) -/

theorem positionalChunksFuel_succ (fuel : Nat) (s : List Char) (limit : Nat) :
    positionalChunksFuel (fuel + 1) s limit =
      if s.length ≤ limit ∨ limit = 0 then [s]
      else s.take limit :: positionalChunksFuel fuel (s.drop limit) limit := rfl

theorem posFuel_congr {limit : Nat} (hl : 1 ≤ limit) :
    ∀ f1 f2 (s : List Char), s.length ≤ f1 → s.length ≤ f2 →
      positionalChunksFuel f1 s limit = positionalChunksFuel f2 s limit := by
  intro f1
  induction f1 with
  | zero =>
    intro f2 s h1 _
    obtain rfl : s = [] := List.length_eq_zero.mp (Nat.le_zero.mp h1)
    cases f2 with
    | zero => rfl
    | succ m => rw [positionalChunksFuel_succ, if_pos (Or.inl (by simp))]; rfl
  | succ n ih =>
    intro f2 s h1 h2
    cases f2 with
    | zero =>
      obtain rfl : s = [] := List.length_eq_zero.mp (Nat.le_zero.mp h2)
      rw [positionalChunksFuel_succ, if_pos (Or.inl (by simp))]; rfl
    | succ m =>
      rw [positionalChunksFuel_succ, positionalChunksFuel_succ]
      by_cases hc : s.length ≤ limit ∨ limit = 0
      · rw [if_pos hc, if_pos hc]
      · rw [if_neg hc, if_neg hc]
        have hd : (s.drop limit).length = s.length - limit := List.length_drop _ _
        rw [ih m (s.drop limit) (by omega) (by omega)]

theorem positionalChunks_of_le {s : List Char} {limit : Nat}
    (h : s.length ≤ limit ∨ limit = 0) : positionalChunks s limit = [s] := by
  show positionalChunksFuel s.length s limit = [s]
  cases hsl : s.length with
  | zero => rfl
  | succ n =>
    rw [positionalChunksFuel_succ, if_pos]
    rw [hsl] at h
    omega

theorem positionalChunks_step {s : List Char} {limit : Nat} (hl : 1 ≤ limit)
    (h : limit < s.length) :
    positionalChunks s limit = s.take limit :: positionalChunks (s.drop limit) limit := by
  show positionalChunksFuel s.length s limit = _
  obtain ⟨n, hn⟩ : ∃ n, s.length = n + 1 := ⟨s.length - 1, by omega⟩
  rw [hn, positionalChunksFuel_succ, if_neg (by omega)]
  have hd : (s.drop limit).length = s.length - limit := List.length_drop _ _
  rw [posFuel_congr hl n (s.drop limit).length (s.drop limit) (by omega) (Nat.le_refl _)]
  rfl

theorem positionalChunks_length {limit : Nat} (hl : 1 ≤ limit) :
    ∀ fuel (s : List Char), s.length ≤ fuel → 1 ≤ s.length →
      (positionalChunks s limit).length = (s.length + limit - 1) / limit := by
  intro fuel
  induction fuel with
  | zero => intro s h1 h2; omega
  | succ n ih =>
    intro s h1 h2
    by_cases hc : s.length ≤ limit
    · rw [positionalChunks_of_le (Or.inl hc), List.length_singleton]
      exact (Nat.div_eq_of_lt_le (by omega) (by omega)).symm
    · rw [positionalChunks_step hl (by omega)]
      have hd : (s.drop limit).length = s.length - limit := List.length_drop _ _
      have hrec := ih (s.drop limit) (by omega) (by omega)
      rw [List.length_cons, hrec, hd]
      have h1' : s.length - limit + limit - 1 = (s.length - 1 - limit) + limit := by omega
      have h2' : s.length + limit - 1 = (s.length - 1 - limit) + limit + limit := by omega
      rw [h1', h2', Nat.add_div_right _ (show 0 < limit by omega),
        Nat.add_div_right _ (show 0 < limit by omega),
        Nat.add_div_right _ (show 0 < limit by omega)]

theorem positionalChunks_mem {limit : Nat} (hl : 1 ≤ limit) :
    ∀ fuel (s : List Char), s.length ≤ fuel → 1 ≤ s.length →
      ∀ p ∈ positionalChunks s limit, p ≠ [] ∧ ∀ c ∈ p, c ∈ s := by
  intro fuel
  induction fuel with
  | zero => intro s h1 h2; omega
  | succ n ih =>
    intro s h1 h2 p hp
    by_cases hc : s.length ≤ limit
    · rw [positionalChunks_of_le (Or.inl hc)] at hp
      obtain rfl : p = s := by simpa using hp
      exact ⟨by intro hnil; rw [hnil] at h2; simp at h2, fun c hc' => hc'⟩
    · rw [positionalChunks_step hl (by omega)] at hp
      have hd : (s.drop limit).length = s.length - limit := List.length_drop _ _
      rcases List.mem_cons.mp hp with rfl | hp'
      · constructor
        · intro hnil
          have h0 := congrArg List.length hnil
          rw [List.length_take, List.length_nil] at h0
          rcases Nat.min_eq_zero_iff.mp h0 with h0 | h0 <;> omega
        · intro c hc'
          exact List.mem_of_mem_take hc'
      · obtain ⟨hne, hsub⟩ := ih (s.drop limit) (by omega) (by omega) p hp'
        exact ⟨hne, fun c hc' => List.mem_of_mem_drop (hsub c hc')⟩

theorem carveFuel_nospace {limit : Nat} (hl : 1 ≤ limit) :
    ∀ fuel (chunk : List Char), chunk.length ≤ fuel →
      (∀ c ∈ chunk, isPySpace c = false) →
      (carveFuel fuel chunk limit).1 ++ [(carveFuel fuel chunk limit).2] =
          positionalChunks chunk limit ∧
        ((carveFuel fuel chunk limit).2 = [] → chunk = []) := by
  intro fuel
  induction fuel with
  | zero =>
    intro chunk h1 _
    obtain rfl : chunk = [] := List.length_eq_zero.mp (Nat.le_zero.mp h1)
    exact ⟨by rw [positionalChunks_of_le (Or.inl (by simp))]; rfl, fun _ => rfl⟩
  | succ n ih =>
    intro chunk h1 hns
    by_cases hc : limit < chunk.length
    · have hsp : (' ' : Char) ∉ chunk.take limit := by
        intro hmem
        have := hns ' ' (List.mem_of_mem_take hmem)
        simp [isPySpace] at this
      have hcs : chooseSplit chunk limit = limit := by
        unfold chooseSplit
        rw [rfindChar_eq_none_of_not_mem hsp]
      have hstrip : pyLstrip (chunk.drop limit) = chunk.drop limit :=
        dropWhile_eq_self_of_nospace (fun c hc' => hns c (List.mem_of_mem_drop hc'))
      have hd : (chunk.drop limit).length = chunk.length - limit := List.length_drop _ _
      obtain ⟨ihe, ihn⟩ := ih (chunk.drop limit) (by omega)
        (fun c hc' => hns c (List.mem_of_mem_drop hc'))
      rw [carveFuel_succ, if_pos hc, hcs, hstrip]
      constructor
      · show chunk.take limit :: _ ++ [_] = _
        rw [List.cons_append, ihe, positionalChunks_step hl hc]
      · intro hnil
        have := ihn hnil
        have := congrArg List.length this
        rw [hd] at this
        simp at this
        omega
    · rw [carveFuel_succ, if_neg hc]
      exact ⟨by rw [positionalChunks_of_le (Or.inl (by omega))]; rfl, fun h => h⟩

theorem map_pyStrip_eq_self {l : List (List Char)} (h : ∀ p ∈ l, pyStrip p = p) :
    l.map pyStrip = l := by
  induction l with
  | nil => rfl
  | cons a t ih =>
    rw [List.map_cons, h a (List.mem_cons_self a t),
      ih (fun p hp => h p (List.mem_cons_of_mem a hp))]

/-- A message with no whitespace at all is split purely by position at
multiples of `limit`, producing exactly `ceil(len/limit)` chunks. -/
theorem split_message_nospace_positional (msg : List Char) (limit : Nat) (hl : 1 ≤ limit)
    (hlen : limit < msg.length) (hns : ∀ c ∈ msg, isPySpace c = false) :
    split_message msg limit = positionalChunks msg limit ∧
      (split_message msg limit).length = (msg.length + limit - 1) / limit := by
  have hmsgne : msg ≠ [] := by
    intro hnil
    rw [hnil] at hlen
    simp at hlen
  have hlines : splitlinesKeepends msg = [msg] := by
    have := splitlinesAux_nobreak msg []
      (fun c hc => by
        cases hb : isPyLineBreak c with
        | false => rfl
        | true =>
          have := isPySpace_of_isPyLineBreak hb
          rw [hns c hc] at this
          exact absurd this (by simp)) hmsgne
    simpa [splitlinesKeepends] using this
  have hproc : processLines (splitlinesKeepends msg) [] limit =
      ((carve msg limit).1, (carve msg limit).2) := by
    rw [hlines, processLines_cons, if_pos (by simpa using hlen),
      if_pos (by simpa using hlen)]
    simp [processLines]
  obtain ⟨hcarve, hlast⟩ := carveFuel_nospace hl msg.length msg (Nat.le_refl _) hns
  have hlastne : (carve msg limit).2 ≠ [] := fun h => hmsgne (hlast h)
  have hmain : split_message msg limit = positionalChunks msg limit := by
    rw [split_message_long hlen, hproc]
    simp only [List.isEmpty_iff]
    rw [if_neg hlastne]
    have hchunks : (carve msg limit).1 ++ [(carve msg limit).2] =
        positionalChunks msg limit := hcarve
    rw [hchunks]
    have hmem := positionalChunks_mem hl msg.length msg (Nat.le_refl _) (by omega)
    have hfilter : (positionalChunks msg limit).filter (fun c => !(pyStrip c).isEmpty) =
        positionalChunks msg limit := by
      rw [List.filter_eq_self]
      intro p hp
      obtain ⟨hne, hsub⟩ := hmem p hp
      have : pyStrip p = p := pyStrip_eq_self_of_nospace (fun c hc => hns c (hsub c hc))
      rw [this]
      simpa using hne
    rw [hfilter]
    exact map_pyStrip_eq_self (fun p hp =>
      pyStrip_eq_self_of_nospace (fun c hc => hns c ((hmem p hp).2 c hc)))
  refine ⟨hmain, ?_⟩
  rw [hmain]
  exact positionalChunks_length hl msg.length msg (Nat.le_refl _) (by omega)

/-- C5: a message that is a single token longer than `limit`, containing
no whitespace (hence no spaces and no line breaks), is split purely by
position at multiples of `limit`, producing exactly
`ceil(len(message)/limit)` chunks. -/
theorem C5_split_message_single_token (msg : List Char) (limit : Nat) (hl : 1 ≤ limit)
    (hlen : limit < msg.length) (hns : ∀ c ∈ msg, isPySpace c = false) :
    split_message msg limit = positionalChunks msg limit ∧
      (split_message msg limit).length = (msg.length + limit - 1) / limit :=
  split_message_nospace_positional msg limit hl hlen hns

/-- Witness for C5 at `msg = "abcde"`, `limit = 2`. -/
theorem C5_witness :
    1 ≤ 2 ∧ 2 < ([ 'a', 'b', 'c', 'd', 'e' ] : List Char).length ∧
      (∀ c ∈ ([ 'a', 'b', 'c', 'd', 'e' ] : List Char), isPySpace c = false) ∧
      (split_message ['a', 'b', 'c', 'd', 'e'] 2 = positionalChunks ['a', 'b', 'c', 'd', 'e'] 2 ∧
        (split_message ['a', 'b', 'c', 'd', 'e'] 2).length =
          (([ 'a', 'b', 'c', 'd', 'e' ] : List Char).length + 2 - 1) / 2) :=
  ⟨by decide, by decide, by decide,
    C5_split_message_single_token ['a', 'b', 'c', 'd', 'e'] 2 (by decide) (by decide)
      (by decide)⟩

/-! ### The publisher loop (C6) -/

theorem sendLoop_cons (post : Nat → Bool) (a : List Char) (rest : List (List Char)) (i : Nat) :
    sendLoop post (a :: rest) i =
      if post i then ((sendLoop post rest (i + 1)).1, i :: (sendLoop post rest (i + 1)).2)
      else (false, [i]) := rfl

theorem sendLoop_fail {post : Nat → Bool} :
    ∀ (l : List (List Char)) (k i : Nat), i < l.length →
      (∀ j, j < i → post (k + j) = true) → post (k + i) = false →
      sendLoop post l k = (false, List.range' k (i + 1)) := by
  intro l
  induction l with
  | nil => intro k i h _ _; simp at h
  | cons a rest ih =>
    intro k i hi hpre hfail
    cases i with
    | zero =>
      have h0 : post k = false := by simpa using hfail
      rw [sendLoop_cons, if_neg (by simp [h0])]
      rfl
    | succ m =>
      have hk : post k = true := by simpa using hpre 0 (by omega)
      have ihh := ih (k + 1) m (by simpa using hi)
        (fun j hj => by
          have h' : k + 1 + j = k + (j + 1) := by omega
          rw [h']
          exact hpre (j + 1) (by omega))
        (by
          have h' : k + 1 + m = k + (m + 1) := by omega
          rw [h']
          exact hfail)
      rw [sendLoop_cons, if_pos hk, ihh, List.range'_succ k (m + 1) 1]

/-- C6: if the HTTP post of a non-final chunk `i` fails (all earlier posts
having succeeded), `send_to_discord` attempts exactly chunks `0..i` — so
the remaining chunks are not attempted and already-sent chunks are not
retried — and returns `False` to the caller. -/
theorem C6_send_to_discord_abort (post : Nat → Bool) (msg : List Char) (i : Nat)
    (hi : i + 1 < (split_message msg (DISCORD_CHAR_LIMIT - 20)).length)
    (hpre : ∀ j, j < i → post j = true) (hfail : post i = false) :
    send_to_discord post true msg = false ∧
      send_to_discord_attempted post true msg = List.range (i + 1) := by
  have hloop := sendLoop_fail (split_message msg (DISCORD_CHAR_LIMIT - 20)) 0 i (by omega)
    (fun j hj => by simpa using hpre j hj) (by simpa using hfail)
  have hne : (split_message msg (DISCORD_CHAR_LIMIT - 20)).length ≠ 0 := by omega
  unfold send_to_discord send_to_discord_attempted send_to_discord_run
  rw [hloop, if_neg hne, List.range_eq_range']
  exact ⟨rfl, rfl⟩

/-- The 3961-character space-free message used to witness C6 splits into
three chunks under the `1980` effective limit. -/
theorem C6_witness_chunk_count :
    0 + 1 < (split_message (List.replicate 3961 'a') (DISCORD_CHAR_LIMIT - 20)).length := by
  have h := (split_message_nospace_positional (List.replicate 3961 'a')
    (DISCORD_CHAR_LIMIT - 20) (by decide) (by rw [List.length_replicate]; decide)
    (fun c hc => by rw [List.eq_of_mem_replicate hc]; decide)).2
  rw [h, List.length_replicate]
  decide

/-- Witness for C6: a space-free, 3961-character message splits into three
chunks under the `1980` effective limit; a post oracle that fails on the
first (non-final) chunk leads to `False` with only chunk `0` attempted. -/
theorem C6_witness :
    (0 + 1 <
        (split_message (List.replicate 3961 'a') (DISCORD_CHAR_LIMIT - 20)).length) ∧
      (send_to_discord (fun _ => false) true (List.replicate 3961 'a') = false ∧
        send_to_discord_attempted (fun _ => false) true (List.replicate 3961 'a') =
          List.range (0 + 1)) :=
  ⟨C6_witness_chunk_count,
    C6_send_to_discord_abort (fun _ => false) (List.replicate 3961 'a') 0
      C6_witness_chunk_count (fun j hj => absurd hj (by omega)) rfl⟩

/-! ### The summary formatters (C7), the commit reader (C8) and the
schedule (C9) -/

/-- C7: for an empty commit batch, the AI-path short-circuit and the
deterministic fallback formatter return the same fixed "no activity"
sentence. -/
theorem C7_empty_batch_same_sentence (geminiKey : Option String) (outcome : AiOutcome)
    (today : String) :
    summarize_commits_with_ai [] geminiKey outcome today = format_commits_basic [] today ∧
      format_commits_basic [] today = "No new commits found in the specified period." :=
  ⟨rfl, rfl⟩

/-- C8: if the repository cannot be opened or queried, `get_commits_since`
returns the empty list (instead of propagating the exception), and that
result is indistinguishable from the empty batch produced by a readable
repository with no matching commits. -/
theorem C8_get_commits_since_error_empty (e : String) :
    get_commits_since (Except.error e) = [] ∧
      get_commits_since (Except.ok []) = [] ∧
      get_commits_since (Except.error e) = get_commits_since (Except.ok []) :=
  ⟨rfl, rfl, rfl⟩

/-- C9: at a fixed current time `T`, `get_start_date` returns `T − 24h`
for `"daily"`, `T − 7d` for `"weekly"`, `T − 30d` for `"monthly"`, and
`T − 7d` for any other string. -/
theorem C9_get_start_date_offsets (T : Int) :
    get_start_date "daily" T = T - 24 * 3600 ∧
      get_start_date "weekly" T = T - 7 * 24 * 3600 ∧
      get_start_date "monthly" T = T - 30 * 24 * 3600 ∧
      ∀ s : String, s ≠ "daily" → s ≠ "weekly" → s ≠ "monthly" →
        get_start_date s T = T - 7 * 24 * 3600 := by
  refine ⟨?_, ?_, ?_, ?_⟩
  · simp [get_start_date, timedeltaDays]
  · simp [get_start_date, timedeltaWeeks]
  · simp [get_start_date, timedeltaDays]
  · intro s h1 h2 h3
    simp [get_start_date, h1, h2, h3, timedeltaWeeks]

/-- Witness for C9 at `T = 0` and the unrecognized frequency `"hourly"`. -/
theorem C9_witness :
    get_start_date "daily" 0 = 0 - 24 * 3600 ∧
      get_start_date "weekly" 0 = 0 - 7 * 24 * 3600 ∧
      get_start_date "monthly" 0 = 0 - 30 * 24 * 3600 ∧
      get_start_date "hourly" 0 = 0 - 7 * 24 * 3600 :=
  ⟨(C9_get_start_date_offsets 0).1, (C9_get_start_date_offsets 0).2.1,
    (C9_get_start_date_offsets 0).2.2.1,
    (C9_get_start_date_offsets 0).2.2.2 "hourly" (by decide) (by decide) (by decide)⟩

end DCS

namespace DCS

example : split_message [' ', 'a', ' '] 5 = [[' ', 'a', ' ']] := by decide

example : split_message ['a', 'b', 'c', 'd', 'e'] 2 =
    [['a', 'b'], ['c', 'd'], ['e']] := by decide

example : split_message ['a', ' ', 'b', 'c', 'd'] 4 = [['a', ' ', 'b', 'c'], ['d']] := by decide

example : splitlinesKeepends ['a', '\r', '\n', 'b'] = [['a', '\r', '\n'], ['b']] := by decide

end DCS
